import Mathlib

/-!
Verification of the crossword CSP solver in `src/generate.py` (class
`CrosswordCreator`).  The data model of `crossword.py` (class `Variable` and
class `Crossword`) is not part of `src/`, so those pieces are modelled from the
spec; every function of `CrosswordCreator` is translated directly from the
source.  The Python dict `self.domains` is modelled as a function from
variables to candidate-word lists, the mutable `assignment` dict as an
association list threaded through the search in state-passing style.
-/

namespace Crosswords

/-- Modelled from the spec: the direction of a crossword slot, one of ACROSS or
DOWN (class `Variable` lives in the repository's `crossword.py`, which is not
under `src/`). -/
inductive Direction where
  | across
  | down
deriving DecidableEq

/-- Modelled from the spec: a crossword variable is a slot identified by its
start position `(row, col)`, a direction, and a length; equality is structural
on all fields (`crossword.py` is not under `src/`). -/
structure Variable where
  row : Nat
  col : Nat
  dir : Direction
  length : Nat
deriving DecidableEq

/-- A candidate word, as its list of characters. -/
abbrev Word := List Char

/-- Modelled from the spec: the immutable constraint graph — the variables, the
full word list, and the overlap map giving for an ordered pair of variables
either `none` (no shared cell) or the pair of character offsets at the shared
cell (`crossword.py` is not under `src/`). -/
structure Crossword where
  vars : List Variable  -- the source field is named variables, which Lean reserves
  words : List Word
  overlaps : Variable → Variable → Option (Nat × Nat)

/-- Modelled from the spec: the neighbors of a variable are all other variables
sharing a non-`none` overlap with it. -/
def Crossword.neighbors (cw : Crossword) (v : Variable) : List Variable :=
  cw.vars.filter (fun u => decide (u ≠ v) && (cw.overlaps v u).isSome)

/-- Modelled from the spec: the overlap map is symmetric in meaning:
`overlap(x,y) = (i,j)` implies `overlap(y,x) = (j,i)`. -/
def OverlapSymm (cw : Crossword) : Prop :=
  ∀ x y i j, cw.overlaps x y = some (i, j) → cw.overlaps y x = some (j, i)

/-- Modelled from the spec: overlaps relate pairs of distinct variables; a
variable has no overlap entry with itself. -/
def NoSelfOverlap (cw : Crossword) : Prop :=
  ∀ v, cw.overlaps v v = none

/-- The domain store: each variable's current list of candidate words
(`self.domains`, modelled functionally). -/
abbrev Domains := Variable → List Word

/-- A partial assignment: the bound (variable, word) pairs, most recent
binding first (models the Python `assignment` dict). -/
abbrev Assignment := List (Variable × Word)

/-- Dictionary lookup in an assignment. -/
def lookupA (a : Assignment) (v : Variable) : Option Word :=
  match a with
  | [] => none
  | p :: rest => if p.1 = v then some p.2 else lookupA rest v

/-- Dictionary removal, modelling `assignment.pop(var)`. -/
def unbindVar (a : Assignment) (v : Variable) : Assignment :=
  a.filter (fun p => decide (p.1 ≠ v))

/-- Dictionary update, modelling `assignment[var] = value`. -/
def bindVar (a : Assignment) (v : Variable) (w : Word) : Assignment :=
  (v, w) :: unbindVar a v

/-- `CrosswordCreator.__init__`: every variable starts from a copy of the full
word list. -/
def initialDomains (cw : Crossword) : Domains := fun _ => cw.words

/-- `CrosswordCreator.enforce_node_consistency`: keep in each domain only the
words whose length equals the variable's length. -/
def enforce_node_consistency (d : Domains) : Domains :=
  fun v => (d v).filter (fun w => decide (w.length = v.length))

/-- Does some word of `dy` agree with `wx` at the overlap offsets `(i, j)`?
(the inner `any` of `CrosswordCreator.revise`). -/
def hasSupport (dy : List Word) (i j : Nat) (wx : Word) : Bool :=
  dy.any (fun wy => decide (wy.get? j = wx.get? i))

/-- `CrosswordCreator.revise`: make `x` arc consistent with `y`; returns the
`revised` flag together with the updated domain store. -/
def revise (cw : Crossword) (d : Domains) (x y : Variable) : Bool × Domains :=
  match cw.overlaps x y with
  | none => (false, d)
  | some (i, j) =>
    ((d x).any (fun wx => !hasSupport (d y) i j wx),
     fun v => if v = x then (d x).filter (fun wx => hasSupport (d y) i j wx) else d v)

/-- The arcs `(z, x)` for `z` a neighbor of `x` other than `y`, re-enqueued by
`ac3` after a successful revision (the Python worklist is a stack: it appends
at the tail and pops from the tail; we model it with the head as the top). -/
def newArcs (cw : Crossword) (x y : Variable) : List (Variable × Variable) :=
  ((cw.neighbors x).filter (fun z => decide (z ≠ y))).map (fun z => (z, x))

/-- The worklist loop of `CrosswordCreator.ac3`, with explicit fuel so that the
definition is structurally recursive (the fuel used by `ac3` below provably
never runs out, see `ac3Fuel_isSome`). -/
def ac3Fuel (cw : Crossword) : Nat → List (Variable × Variable) → Domains → Option (Bool × Domains)
  | 0, _, _ => none
  | fuel + 1, arcs, d =>
    match arcs with
    | [] => some (true, d)
    | (x, y) :: rest =>
      let r := revise cw d x y
      if r.1 = true then
        if (r.2 x).isEmpty then some (false, r.2)
        else ac3Fuel cw fuel (newArcs cw x y ++ rest) r.2
      else ac3Fuel cw fuel rest r.2

/-- Total number of candidate words over all variables of the puzzle. -/
def totalSize (cw : Crossword) (d : Domains) : Nat :=
  (cw.vars.map (fun v => (d v).length)).sum

/-- Number of queued arcs whose first component is not a puzzle variable. -/
def badArcCount (cw : Crossword) (arcs : List (Variable × Variable)) : Nat :=
  (arcs.filter (fun p => !(decide (p.1 ∈ cw.vars)))).length

/-- Strict upper bound (minus one) on the number of iterations of the `ac3`
worklist loop. -/
def ac3Bound (cw : Crossword) (arcs : List (Variable × Variable)) (d : Domains) : Nat :=
  (totalSize cw d + badArcCount cw arcs) * (cw.vars.length + 1) + arcs.length

/-- The initial worklist of `ac3` when no explicit arcs are supplied: all
ordered pairs `(x, y)` with `y` a neighbor of `x`. -/
def ac3Arcs (cw : Crossword) : List (Variable × Variable) :=
  cw.vars.flatMap (fun x => (cw.neighbors x).map (fun y => (x, y)))

/-- `CrosswordCreator.ac3` called with its default argument (`arcs=None`):
run the worklist loop from the full arc list.  The fuel strictly exceeds the
loop's iteration count, so the default of `getD` is never taken. -/
def ac3 (cw : Crossword) (d : Domains) : Bool × Domains :=
  (ac3Fuel cw (ac3Bound cw (ac3Arcs cw) d + 1) (ac3Arcs cw) d).getD (true, d)

/-- `CrosswordCreator.assignment_complete`: the set of assigned variables
equals the set of puzzle variables. -/
def assignment_complete (cw : Crossword) (a : Assignment) : Bool :=
  cw.vars.all (fun v => (lookupA a v).isSome) &&
    a.all (fun p => decide (p.1 ∈ cw.vars))

/-- `CrosswordCreator.consistent`: every bound word has its variable's length,
and bound neighbors agree on the overlap characters. -/
def consistent (cw : Crossword) (a : Assignment) : Bool :=
  a.all (fun p =>
    decide (p.2.length = p.1.length) &&
    (cw.neighbors p.1).all (fun nb =>
      match lookupA a nb with
      | none => true
      | some w2 =>
        match cw.overlaps p.1 nb with
        | none => true
        | some (i, j) => decide (p.2.get? i = w2.get? j)))

/-- The conflict count computed by `CrosswordCreator.order_domain_values`: the
number of unassigned neighbors having at least one domain word that disagrees
with `value` at the overlap offsets. -/
def conflictCount (cw : Crossword) (d : Domains) (a : Assignment) (var : Variable) (value : Word) : Nat :=
  ((cw.neighbors var).filter (fun nb =>
    (lookupA a nb).isNone &&
    match cw.overlaps var nb with
    | none => false
    | some (i, j) => (d nb).any (fun w => decide (value.get? i ≠ w.get? j)))).length

/-- Modelled from the spec: the conflict count described by the spec for
`order_domain_values` — the number of unassigned neighbors with zero remaining
candidates compatible with `value` at the overlap offsets. -/
def specConflictCount (cw : Crossword) (d : Domains) (a : Assignment) (var : Variable) (value : Word) : Nat :=
  ((cw.neighbors var).filter (fun nb =>
    (lookupA a nb).isNone &&
    match cw.overlaps var nb with
    | none => false
    | some (i, j) => !(d nb).any (fun w => decide (value.get? i = w.get? j)))).length

/-- Stable insertion into a sorted list (used to model Python's stable
`sorted`). -/
def insertSorted (le : Word → Word → Bool) (w : Word) : List Word → List Word
  | [] => [w]
  | v :: rest => if le w v then w :: v :: rest else v :: insertSorted le w rest

/-- Stable insertion sort; Python's `sorted` is also stable, and stable sorts
by the same key agree. -/
def insertionSort (le : Word → Word → Bool) : List Word → List Word
  | [] => []
  | w :: rest => insertSorted le w (insertionSort le rest)

/-- `CrosswordCreator.order_domain_values`: sort `domains[var]` ascending by
`conflictCount`. -/
def order_domain_values (cw : Crossword) (d : Domains) (a : Assignment) (var : Variable) : List Word :=
  insertionSort
    (fun u v => decide (conflictCount cw d a var u ≤ conflictCount cw d a var v)) (d var)

/-- The sort key of `CrosswordCreator.select_unassigned_variable`:
(remaining domain size, degree); the degree is compared in reverse. -/
def mrvKey (cw : Crossword) (d : Domains) (v : Variable) : Nat × Nat :=
  ((d v).length, (cw.neighbors v).length)

/-- Strict lexicographic comparison matching Python's key
`(len(domains[var]), -len(neighbors(var)))`. -/
def mrvLt (k1 k2 : Nat × Nat) : Bool :=
  decide (k1.1 < k2.1) || (decide (k1.1 = k2.1) && decide (k2.2 < k1.2))

/-- Python's `min` over a nonempty list with the `mrvKey` key: the earliest
element with minimal key. -/
def selMin (cw : Crossword) (d : Domains) (v : Variable) (rest : List Variable) : Variable :=
  rest.foldl
    (fun best u => if mrvLt (mrvKey cw d u) (mrvKey cw d best) = true then u else best) v

/-- `CrosswordCreator.select_unassigned_variable`: the first unassigned
variable with minimal key (Python's `min` keeps the earliest minimum; `min` on
an empty list raises, which is modelled by `none` — unreachable from `solve`).
-/
def select_unassigned_variable (cw : Crossword) (d : Domains) (a : Assignment) : Option Variable :=
  match cw.vars.filter (fun v => (lookupA a v).isNone) with
  | [] => none
  | v :: rest => some (selMin cw d v rest)

/-- The candidate loop of `CrosswordCreator.backtrack`: bind `var := value`
into the current dict, recurse when consistent, and pop `var` before trying
the next candidate; on success the result is propagated without popping.
`bt` is the recursive call, and the second component the final state of the
mutable dict. -/
def tryValues (cw : Crossword) (bt : Assignment → Option Assignment × Assignment) (var : Variable) :
    List Word → Assignment → Option Assignment × Assignment
  | [], a => (none, a)
  | value :: rest, a =>
    let a1 := bindVar a var value
    if consistent cw a1 = true then
      let res := bt a1
      match res.1 with
      | some r => (some r, res.2)
      | none => tryValues cw bt var rest (unbindVar res.2 var)
    else tryValues cw bt var rest (unbindVar a1 var)

/-- `CrosswordCreator.backtrack`, in state-passing style: the first component
is the returned value, the second the state of the `assignment` dict when the
call returns.  The fuel bounds the recursion depth, which never exceeds the
number of variables plus one (each recursive call binds one more variable). -/
def backtrack (cw : Crossword) (d : Domains) : Nat → Assignment → Option Assignment × Assignment
  | 0, a => (none, a)
  | fuel + 1, a =>
    if assignment_complete cw a = true then (some a, a)
    else
      match select_unassigned_variable cw d a with
      | none => (none, a)
      | some var =>
        tryValues cw (fun a1 => backtrack cw d fuel a1) var (order_domain_values cw d a var) a

/-- `CrosswordCreator.solve`: enforce node consistency, run `ac3` (whose
Boolean result the source discards), then return the result of backtracking on
the empty assignment. -/
def solve (cw : Crossword) : Option Assignment :=
  let d1 := enforce_node_consistency (initialDomains cw)
  let d2 := (ac3 cw d1).2
  (backtrack cw d2 (cw.vars.length + 1) []).1

/-- `solve` together with a trace bit recording whether the backtracking
search was invoked; in the source the call `self.backtrack(dict())` is reached
unconditionally. -/
def solveTraced (cw : Crossword) : Option Assignment × Bool :=
  let d1 := enforce_node_consistency (initialDomains cw)
  let d2 := (ac3 cw d1).2
  ((backtrack cw d2 (cw.vars.length + 1) []).1, true)

/-- A sequence of `revise` calls applied to a domain store. -/
def reviseSeq (cw : Crossword) (ps : List (Variable × Variable)) (d : Domains) : Domains :=
  ps.foldl (fun d p => (revise cw d p.1 p.2).2) d

/-- Arc consistency of `x` with respect to `y` in store `d`: every remaining
candidate of `x` has a supporting candidate in `y`'s domain. -/
def Supported (cw : Crossword) (d : Domains) (x y : Variable) : Prop :=
  ∀ i j, cw.overlaps x y = some (i, j) → ∀ wx ∈ d x, ∃ wy ∈ d y, wx.get? i = wy.get? j

/-- Pairwise agreement of a candidate solution function at every overlapping
ordered pair of distinct puzzle variables. -/
def SolPair (cw : Crossword) (g : Variable → Word) : Prop :=
  ∀ x ∈ cw.vars, ∀ y ∈ cw.vars, x ≠ y → ∀ i j, cw.overlaps x y = some (i, j) →
    (g x).get? i = (g y).get? j

/-- Lengths-and-membership side of a candidate solution function. -/
def SolWords (cw : Crossword) (g : Variable → Word) : Prop :=
  ∀ v ∈ cw.vars, (g v).length = v.length ∧ g v ∈ cw.words

/-- Number of puzzle variables not yet bound by the assignment. -/
def unassignedCount (cw : Crossword) (a : Assignment) : Nat :=
  (cw.vars.filter (fun v => (lookupA a v).isNone)).length

/-! ### Concrete instances used as witnesses and counterexamples -/

/-- The overlap map of a puzzle with exactly two crossing slots `a` and `b`,
sharing the cell at character `i` of `a` and character `j` of `b`. -/
def ov2 (a b : Variable) (i j : Nat) (x y : Variable) : Option (Nat × Nat) :=
  if x = a ∧ y = b then some (i, j)
  else if x = b ∧ y = a then some (j, i)
  else none

/-- A horizontal slot of length 3 starting at (0,0). -/
def v1 : Variable := ⟨0, 0, Direction.across, 3⟩

/-- A vertical slot of length 3 starting at (0,2); it crosses `v1` in the cell
(0,2), which is character 2 of `v1` and character 0 of `v2`. -/
def v2 : Variable := ⟨0, 2, Direction.down, 3⟩

/-- Overlap map of the two crossing slots. -/
def ovA : Variable → Variable → Option (Nat × Nat) := ov2 v1 v2 2 0

/-- Two crossing length-3 slots with word list {ABC, CBA}; solvable
(v1 = ABC, v2 = CBA share the letter C). -/
def cwA : Crossword := ⟨[v1, v2], ["ABC".toList, "CBA".toList], ovA⟩

/-- Two crossing length-3 slots with word list {ABC}; `ac3` empties a domain
(ABC's last letter C never matches ABC's first letter A). -/
def cwB : Crossword := ⟨[v1, v2], ["ABC".toList], ovA⟩

/-- A domain store for `cwB` in which both slots still hold ABC. -/
def dB : Domains := fun _ => ["ABC".toList]

/-- A single isolated slot of length 1. -/
def vD : Variable := ⟨0, 0, Direction.across, 1⟩

/-- A puzzle with one isolated variable and the single word A. -/
def cwD : Crossword := ⟨[vD], ["A".toList], fun _ _ => none⟩

/-- Domain store for `cwD`. -/
def dD : Domains := fun _ => ["A".toList]

/-- A horizontal slot of length 1 at (0,0). -/
def w1 : Variable := ⟨0, 0, Direction.across, 1⟩

/-- A vertical slot of length 1 at (0,0), crossing `w1` at offsets (0,0). -/
def w2 : Variable := ⟨0, 0, Direction.down, 1⟩

/-- Overlap map of the two crossing length-1 slots. -/
def ovC : Variable → Variable → Option (Nat × Nat) := ov2 w1 w2 0 0

/-- Puzzle used to separate the implemented conflict count from the spec's. -/
def cwC : Crossword := ⟨[w1, w2], [], ovC⟩

/-- Domain store for `cwC`: slot `w1` holds {X, A}, slot `w2` holds {A, B}. -/
def dC : Domains :=
  fun v => if v = w1 then ["X".toList, "A".toList] else ["A".toList, "B".toList]

/-- A domain store holding {ABC, CBA} for every slot. -/
def dW : Domains := fun _ => ["ABC".toList, "CBA".toList]

/-! ### Assignment-dictionary lemmas -/

theorem lookupA_eq_none_iff (a : Assignment) (v : Variable) :
    lookupA a v = none ↔ ∀ p ∈ a, p.1 ≠ v := by
  induction a with
  | nil => simp [lookupA]
  | cons p rest ih =>
    by_cases h : p.1 = v
    · simp [lookupA, h]
    · simp [lookupA, h, ih]

theorem lookupA_mem {a : Assignment} {v : Variable} {w : Word}
    (h : lookupA a v = some w) : (v, w) ∈ a := by
  induction a with
  | nil => simp [lookupA] at h
  | cons p rest ih =>
    obtain ⟨p1, p2⟩ := p
    by_cases hp : p1 = v
    · simp only [lookupA, hp, if_pos, Option.some.injEq] at h
      rw [hp, h]
      exact List.mem_cons_self _ _
    · simp only [lookupA, hp, if_neg, ite_false] at h
      exact List.mem_cons_of_mem _ (ih h)

theorem mem_unbindVar {a : Assignment} {v : Variable} {p : Variable × Word} :
    p ∈ unbindVar a v ↔ p ∈ a ∧ p.1 ≠ v := by
  simp [unbindVar, List.mem_filter]

theorem unbindVar_eq_self {a : Assignment} {v : Variable}
    (h : lookupA a v = none) : unbindVar a v = a := by
  rw [unbindVar, List.filter_eq_self]
  intro p hp
  exact decide_eq_true ((lookupA_eq_none_iff a v).mp h p hp)

theorem lookupA_unbindVar (a : Assignment) (v u : Variable) (h : u ≠ v) :
    lookupA (unbindVar a v) u = lookupA a u := by
  induction a with
  | nil => rfl
  | cons p rest ih =>
    rw [unbindVar, List.filter_cons]
    by_cases hp : p.1 = v
    · rw [if_neg (by simp [hp])]
      rw [lookupA, if_neg (by rw [hp]; exact fun hh => h hh.symm)]
      exact ih
    · rw [if_pos (by simp [hp])]
      by_cases hu : p.1 = u
      · rw [lookupA, lookupA, if_pos hu, if_pos hu]
      · rw [lookupA, lookupA, if_neg hu, if_neg hu]
        exact ih

theorem lookupA_bindVar (a : Assignment) (v : Variable) (w : Word) (u : Variable) :
    lookupA (bindVar a v w) u = if v = u then some w else lookupA a u := by
  by_cases h : v = u
  · simp [bindVar, lookupA, h]
  · rw [bindVar, lookupA]
    simp only [if_neg h]
    exact lookupA_unbindVar a v u (fun hh => h hh.symm)

theorem unbindVar_bindVar (a : Assignment) (v : Variable) (w : Word)
    (h : lookupA a v = none) : unbindVar (bindVar a v w) v = a := by
  rw [bindVar, unbindVar_eq_self h, unbindVar, List.filter_cons, if_neg (by simp)]
  exact unbindVar_eq_self h

theorem mem_bindVar {a : Assignment} {v : Variable} {w : Word} {p : Variable × Word}
    (hp : p ∈ bindVar a v w) : p = (v, w) ∨ p ∈ a := by
  rw [bindVar] at hp
  rcases List.mem_cons.mp hp with h | h
  · exact Or.inl h
  · exact Or.inr (mem_unbindVar.mp h).1

/-! ### Lemmas about revise -/

theorem hasSupport_iff (dy : List Word) (i j : Nat) (wx : Word) :
    hasSupport dy i j wx = true ↔ ∃ wy ∈ dy, wy.get? j = wx.get? i := by
  simp [hasSupport, List.any_eq_true]

theorem revise_fst_none {cw : Crossword} {d : Domains} {x y : Variable}
    (h : cw.overlaps x y = none) : revise cw d x y = (false, d) := by
  unfold revise
  rw [h]

theorem revise_fst_eq {cw : Crossword} {d : Domains} {x y : Variable} {i j : Nat}
    (h : cw.overlaps x y = some (i, j)) :
    (revise cw d x y).1 = (d x).any (fun wx => !hasSupport (d y) i j wx) := by
  unfold revise
  rw [h]

theorem revise_snd_x {cw : Crossword} {d : Domains} {x y : Variable} {i j : Nat}
    (h : cw.overlaps x y = some (i, j)) :
    (revise cw d x y).2 x = (d x).filter (fun wx => hasSupport (d y) i j wx) := by
  unfold revise
  rw [h]
  simp

theorem revise_snd_of_ne (cw : Crossword) (d : Domains) (x y v : Variable) (h : v ≠ x) :
    (revise cw d x y).2 v = d v := by
  unfold revise
  split
  · rfl
  · simp [h]

theorem revise_mem_x {cw : Crossword} {d : Domains} {x y : Variable} {i j : Nat}
    (h : cw.overlaps x y = some (i, j)) (w : Word) :
    w ∈ (revise cw d x y).2 x ↔ w ∈ d x ∧ hasSupport (d y) i j w = true := by
  rw [revise_snd_x h]
  exact List.mem_filter

theorem revise_snd_sublist (cw : Crossword) (d : Domains) (x y v : Variable) :
    ((revise cw d x y).2 v).Sublist (d v) := by
  by_cases hv : v = x
  · rw [hv]
    match ho : cw.overlaps x y with
    | none => rw [revise_fst_none ho]
    | some (i, j) =>
      rw [revise_snd_x ho]
      exact List.filter_sublist _
  · rw [revise_snd_of_ne cw d x y v hv]

theorem revise_false_pointwise {cw : Crossword} {d : Domains} {x y : Variable}
    (h : (revise cw d x y).1 = false) (v : Variable) : (revise cw d x y).2 v = d v := by
  by_cases hv : v = x
  · rw [hv]
    match ho : cw.overlaps x y with
    | none => rw [revise_fst_none ho]
    | some (i, j) =>
      rw [revise_snd_x ho]
      rw [revise_fst_eq ho, List.any_eq_false] at h
      rw [List.filter_eq_self]
      intro w hw
      have := h w hw
      simp at this
      exact this
  · exact revise_snd_of_ne cw d x y v hv

theorem revise_true_shrink {cw : Crossword} {d : Domains} {x y : Variable}
    (h : (revise cw d x y).1 = true) :
    ((revise cw d x y).2 x).length < (d x).length := by
  match ho : cw.overlaps x y with
  | none =>
    rw [revise_fst_none ho] at h
    simp at h
  | some (i, j) =>
    rw [revise_snd_x ho]
    rw [revise_fst_eq ho, List.any_eq_true] at h
    obtain ⟨w, hw, hns⟩ := h
    rw [List.length_filter_lt_length_iff_exists]
    refine ⟨w, hw, ?_⟩
    simp at hns
    simp [hns]

/-! ### Counting lemmas for the ac3 fuel bound -/

theorem sum_map_le_sum_map {l : List Variable} {f g : Variable → Nat}
    (h : ∀ v ∈ l, g v ≤ f v) : (l.map g).sum ≤ (l.map f).sum := by
  induction l with
  | nil => simp
  | cons a t ih =>
    simp only [List.map_cons, List.sum_cons]
    have h1 := h a (List.mem_cons_self a t)
    have h2 := ih (fun v hv => h v (List.mem_cons_of_mem a hv))
    omega

theorem sum_map_lt_sum_map {l : List Variable} {f g : Variable → Nat} {x : Variable}
    (hx : x ∈ l) (hlt : g x < f x) (hle : ∀ v ∈ l, g v ≤ f v) :
    (l.map g).sum < (l.map f).sum := by
  induction l with
  | nil => cases hx
  | cons a t ih =>
    simp only [List.map_cons, List.sum_cons]
    rcases List.mem_cons.mp hx with hxa | hx'
    · have h2 := sum_map_le_sum_map (fun v hv => hle v (List.mem_cons_of_mem a hv))
      have hlt' : g a < f a := hxa ▸ hlt
      omega
    · have h1 := hle a (List.mem_cons_self a t)
      have h2 := ih hx' (fun v hv => hle v (List.mem_cons_of_mem a hv))
      omega

theorem totalSize_congr (cw : Crossword) {d d' : Domains}
    (h : ∀ v ∈ cw.vars, d' v = d v) : totalSize cw d' = totalSize cw d := by
  unfold totalSize
  congr 1
  exact List.map_congr_left (fun v hv => by rw [h v hv])

theorem totalSize_lt (cw : Crossword) {d d' : Domains} {x : Variable} (hx : x ∈ cw.vars)
    (hlt : (d' x).length < (d x).length) (hother : ∀ v, v ≠ x → d' v = d v) :
    totalSize cw d' < totalSize cw d := by
  unfold totalSize
  apply sum_map_lt_sum_map hx hlt
  intro v _
  by_cases hvx : v = x
  · subst hvx
    exact Nat.le_of_lt hlt
  · rw [hother v hvx]

theorem mem_neighbors {cw : Crossword} {v u : Variable} :
    u ∈ cw.neighbors v ↔ u ∈ cw.vars ∧ u ≠ v ∧ (cw.overlaps v u).isSome = true := by
  simp [Crossword.neighbors, List.mem_filter, Bool.and_eq_true, decide_eq_true_iff, and_assoc]

theorem badArcCount_cons (cw : Crossword) (p : Variable × Variable)
    (arcs : List (Variable × Variable)) :
    badArcCount cw (p :: arcs) = (if p.1 ∈ cw.vars then 0 else 1) + badArcCount cw arcs := by
  unfold badArcCount
  rw [List.filter_cons]
  by_cases h : p.1 ∈ cw.vars
  · simp [h]
  · simp only [h, decide_False, Bool.not_false, if_true, if_false, List.length_cons]
    omega

theorem badArcCount_append (cw : Crossword) (l1 l2 : List (Variable × Variable)) :
    badArcCount cw (l1 ++ l2) = badArcCount cw l1 + badArcCount cw l2 := by
  unfold badArcCount
  rw [List.filter_append, List.length_append]

theorem badArcCount_newArcs (cw : Crossword) (x y : Variable) :
    badArcCount cw (newArcs cw x y) = 0 := by
  unfold badArcCount
  rw [List.length_eq_zero, List.filter_eq_nil_iff]
  intro p hp
  rw [newArcs] at hp
  simp only [List.mem_map, List.mem_filter] at hp
  obtain ⟨z, ⟨hz, _⟩, rfl⟩ := hp
  have : z ∈ cw.vars := (mem_neighbors.mp hz).1
  simp [this]

theorem newArcs_length_le (cw : Crossword) (x y : Variable) :
    (newArcs cw x y).length ≤ cw.vars.length := by
  rw [newArcs, List.length_map]
  calc (List.filter (fun z => decide (z ≠ y)) (cw.neighbors x)).length
      ≤ (cw.neighbors x).length := List.length_filter_le _ _
    _ ≤ cw.vars.length := by
        rw [Crossword.neighbors]
        exact List.length_filter_le _ _

/-! ### The fuel of ac3 never runs out -/

theorem ac3Fuel_nil (cw : Crossword) (fuel : Nat) (d : Domains) :
    ac3Fuel cw (fuel + 1) [] d = some (true, d) := rfl

theorem ac3Fuel_cons (cw : Crossword) (fuel : Nat) (x y : Variable)
    (rest : List (Variable × Variable)) (d : Domains) :
    ac3Fuel cw (fuel + 1) ((x, y) :: rest) d =
      if (revise cw d x y).1 = true then
        if ((revise cw d x y).2 x).isEmpty then some (false, (revise cw d x y).2)
        else ac3Fuel cw fuel (newArcs cw x y ++ rest) (revise cw d x y).2
      else ac3Fuel cw fuel rest (revise cw d x y).2 := rfl

theorem ac3Fuel_isSome (cw : Crossword) :
    ∀ fuel arcs d, ac3Bound cw arcs d < fuel → (ac3Fuel cw fuel arcs d).isSome = true := by
  intro fuel
  induction fuel with
  | zero => exact fun arcs d h => absurd h (Nat.not_lt_zero _)
  | succ fuel ih =>
    intro arcs d h
    match arcs with
    | [] => rfl
    | (x, y) :: rest =>
      rw [ac3Fuel_cons]
      by_cases hr : (revise cw d x y).1 = true
      · rw [if_pos hr]
        by_cases he : ((revise cw d x y).2 x).isEmpty
        · rw [if_pos he]
          rfl
        · rw [if_neg he]
          apply ih
          have hshrink := revise_true_shrink hr
          have hframe := fun v hv => revise_snd_of_ne cw d x y v hv
          have hA : totalSize cw (revise cw d x y).2 + badArcCount cw (newArcs cw x y ++ rest) + 1
              ≤ totalSize cw d + badArcCount cw ((x, y) :: rest) := by
            rw [badArcCount_append, badArcCount_newArcs, badArcCount_cons]
            by_cases hx : x ∈ cw.vars
            · have hlt : totalSize cw (revise cw d x y).2 < totalSize cw d :=
                totalSize_lt cw hx hshrink hframe
              simp only [hx, if_true]
              omega
            · have heq : totalSize cw (revise cw d x y).2 = totalSize cw d :=
                totalSize_congr cw (fun v hv => hframe v (fun hvx => hx (hvx ▸ hv)))
              simp only [hx, if_false]
              omega
          have hlen : (newArcs cw x y ++ rest).length ≤ cw.vars.length + rest.length := by
            rw [List.length_append]
            have := newArcs_length_le cw x y
            omega
          unfold ac3Bound at h ⊢
          set A' := totalSize cw (revise cw d x y).2 + badArcCount cw (newArcs cw x y ++ rest)
            with hA'
          set A := totalSize cw d + badArcCount cw ((x, y) :: rest) with hAd
          have hmul : (A' + 1) * (cw.vars.length + 1) ≤ A * (cw.vars.length + 1) :=
            Nat.mul_le_mul_right _ (by omega)
          have hexp : (A' + 1) * (cw.vars.length + 1)
              = A' * (cw.vars.length + 1) + (cw.vars.length + 1) := by ring
          rw [hexp] at hmul
          set P := A' * (cw.vars.length + 1)
          set Q := A * (cw.vars.length + 1)
          simp only [List.length_cons] at h
          omega
      · rw [if_neg hr]
        apply ih
        have hr' : (revise cw d x y).1 = false := by
          cases hb : (revise cw d x y).1
          · rfl
          · exact absurd hb hr
        have heq : totalSize cw (revise cw d x y).2 = totalSize cw d :=
          totalSize_congr cw (fun v _ => revise_false_pointwise hr' v)
        unfold ac3Bound at h ⊢
        rw [heq]
        have hmul : (totalSize cw d + badArcCount cw rest) * (cw.vars.length + 1)
            ≤ (totalSize cw d + badArcCount cw ((x, y) :: rest)) * (cw.vars.length + 1) := by
          apply Nat.mul_le_mul_right
          rw [badArcCount_cons]
          omega
        set P := (totalSize cw d + badArcCount cw rest) * (cw.vars.length + 1)
        set Q := (totalSize cw d + badArcCount cw ((x, y) :: rest)) * (cw.vars.length + 1)
        simp only [List.length_cons] at h
        omega

theorem mem_newArcs {cw : Crossword} {x y : Variable} {p : Variable × Variable}
    (hp : p ∈ newArcs cw x y) :
    p.1 ∈ cw.vars ∧ p.2 = x ∧ p.1 ≠ x ∧ p.1 ≠ y ∧ (cw.overlaps x p.1).isSome = true := by
  rw [newArcs] at hp
  simp only [List.mem_map, List.mem_filter, decide_eq_true_iff] at hp
  obtain ⟨z, ⟨hz, hzy⟩, rfl⟩ := hp
  obtain ⟨h1, h2, h3⟩ := mem_neighbors.mp hz
  exact ⟨h1, rfl, h2, hzy, h3⟩

theorem ac3Fuel_sublist (cw : Crossword) :
    ∀ fuel arcs d b d', ac3Fuel cw fuel arcs d = some (b, d') →
      ∀ v, (d' v).Sublist (d v) := by
  intro fuel
  induction fuel with
  | zero =>
    intro arcs d b d' h
    simp [ac3Fuel] at h
  | succ fuel ih =>
    intro arcs d b d' h v
    match arcs with
    | [] =>
      rw [ac3Fuel_nil] at h
      injection h with h
      injection h with hb hd
      subst hd
      exact List.Sublist.refl _
    | (x, y) :: rest =>
      rw [ac3Fuel_cons] at h
      by_cases hr : (revise cw d x y).1 = true
      · rw [if_pos hr] at h
        by_cases he : ((revise cw d x y).2 x).isEmpty
        · rw [if_pos he] at h
          injection h with h
          injection h with hb hd
          subst hd
          exact revise_snd_sublist cw d x y v
        · rw [if_neg he] at h
          exact List.Sublist.trans (ih _ _ _ _ h v) (revise_snd_sublist cw d x y v)
      · rw [if_neg hr] at h
        exact List.Sublist.trans (ih _ _ _ _ h v) (revise_snd_sublist cw d x y v)

theorem ac3Fuel_false_empty (cw : Crossword) :
    ∀ fuel arcs d d', (∀ p ∈ arcs, p.1 ∈ cw.vars) →
      ac3Fuel cw fuel arcs d = some (false, d') → ∃ x ∈ cw.vars, d' x = [] := by
  intro fuel
  induction fuel with
  | zero =>
    intro arcs d d' _ h
    simp [ac3Fuel] at h
  | succ fuel ih =>
    intro arcs d d' harcs h
    match arcs with
    | [] =>
      rw [ac3Fuel_nil] at h
      injection h with h
      injection h with hb hd
      exact absurd hb (by simp)
    | (x, y) :: rest =>
      rw [ac3Fuel_cons] at h
      by_cases hr : (revise cw d x y).1 = true
      · rw [if_pos hr] at h
        by_cases he : ((revise cw d x y).2 x).isEmpty
        · rw [if_pos he] at h
          injection h with h
          injection h with hb hd
          refine ⟨x, harcs (x, y) (List.mem_cons_self _ _), ?_⟩
          rw [← hd]
          exact List.isEmpty_iff.mp he
        · rw [if_neg he] at h
          apply ih _ _ _ ?_ h
          intro p hp
          rcases List.mem_append.mp hp with hp | hp
          · exact (mem_newArcs hp).1
          · exact harcs p (List.mem_cons_of_mem _ hp)
      · rw [if_neg hr] at h
        exact ih _ _ _ (fun p hp => harcs p (List.mem_cons_of_mem _ hp)) h

theorem ac3Fuel_keeps (cw : Crossword) (g : Variable → Word) (hp : SolPair cw g) :
    ∀ fuel arcs d b d',
      (∀ p ∈ arcs, p.1 ∈ cw.vars ∧ p.2 ∈ cw.vars ∧ p.1 ≠ p.2) →
      (∀ v ∈ cw.vars, g v ∈ d v) →
      ac3Fuel cw fuel arcs d = some (b, d') →
      ∀ v ∈ cw.vars, g v ∈ d' v := by
  intro fuel
  induction fuel with
  | zero =>
    intro arcs d b d' _ _ h
    simp [ac3Fuel] at h
  | succ fuel ih =>
    intro arcs d b d' harcs hd h
    match arcs with
    | [] =>
      rw [ac3Fuel_nil] at h
      injection h with h
      injection h with hb hdd
      subst hdd
      exact hd
    | (x, y) :: rest =>
      have hstep : ∀ v ∈ cw.vars, g v ∈ (revise cw d x y).2 v := by
        intro v hv
        by_cases hvx : v = x
        · rw [hvx]
          match ho : cw.overlaps x y with
          | none =>
            rw [revise_fst_none ho]
            exact hd x (hvx ▸ hv)
          | some (i, j) =>
            rw [revise_mem_x ho]
            obtain ⟨hx1, hy1, hxy⟩ := harcs (x, y) (List.mem_cons_self _ _)
            refine ⟨hd x hx1, ?_⟩
            rw [hasSupport_iff]
            exact ⟨g y, hd y hy1, (hp x hx1 y hy1 hxy i j ho).symm⟩
        · rw [revise_snd_of_ne cw d x y v hvx]
          exact hd v hv
      rw [ac3Fuel_cons] at h
      by_cases hr : (revise cw d x y).1 = true
      · rw [if_pos hr] at h
        by_cases he : ((revise cw d x y).2 x).isEmpty
        · rw [if_pos he] at h
          injection h with h
          injection h with hb hdd
          subst hdd
          exact hstep
        · rw [if_neg he] at h
          apply ih _ _ _ _ ?_ hstep h
          intro p hp
          rcases List.mem_append.mp hp with hp | hp
          · obtain ⟨h1, h2, h3, _, _⟩ := mem_newArcs hp
            obtain ⟨hx1, _, _⟩ := harcs (x, y) (List.mem_cons_self _ _)
            refine ⟨h1, ?_, ?_⟩
            · rw [h2]
              exact hx1
            · rw [h2]
              exact h3
          · exact harcs p (List.mem_cons_of_mem _ hp)
      · rw [if_neg hr] at h
        exact ih _ _ _ _ (fun p hp => harcs p (List.mem_cons_of_mem _ hp)) hstep h

theorem supported_of_sub {cw : Crossword} {d d' : Domains} {a b : Variable}
    (hsub : ∀ w, w ∈ d' a → w ∈ d a) (hb : d' b = d b)
    (h : Supported cw d a b) : Supported cw d' a b := by
  intro i j ho wx hwx
  obtain ⟨wy, hwy, he⟩ := h i j ho wx (hsub wx hwx)
  refine ⟨wy, ?_, he⟩
  rw [hb]
  exact hwy

theorem ac3Fuel_fixed (cw : Crossword) (hs : OverlapSymm cw) :
    ∀ fuel arcs d d',
      (∀ p ∈ arcs, p.1 ∈ cw.vars ∧ p.2 ∈ cw.vars ∧ p.1 ≠ p.2) →
      (∀ x ∈ cw.vars, ∀ y ∈ cw.vars, x ≠ y → (cw.overlaps x y).isSome = true →
        (x, y) ∈ arcs ∨ Supported cw d x y) →
      ac3Fuel cw fuel arcs d = some (true, d') →
      ∀ x ∈ cw.vars, ∀ y ∈ cw.vars, x ≠ y → Supported cw d' x y := by
  intro fuel
  induction fuel with
  | zero =>
    intro arcs d d' _ _ h
    simp [ac3Fuel] at h
  | succ fuel ih =>
    intro arcs d d' harcs hinv h
    match arcs with
    | [] =>
      rw [ac3Fuel_nil] at h
      injection h with h
      injection h with hb hd
      subst hd
      intro x hx y hy hxy i j ho wx hwx
      have hov : (cw.overlaps x y).isSome = true := by rw [ho]; rfl
      rcases hinv x hx y hy hxy hov with hmem | hsup
      · exact absurd hmem (List.not_mem_nil _)
      · exact hsup i j ho wx hwx
    | (x, y) :: rest =>
      rw [ac3Fuel_cons] at h
      obtain ⟨hxv, hyv, hxy⟩ := harcs (x, y) (List.mem_cons_self _ _)
      have hyx : y ≠ x := Ne.symm hxy
      by_cases hr : (revise cw d x y).1 = true
      · rw [if_pos hr] at h
        by_cases he : ((revise cw d x y).2 x).isEmpty
        · rw [if_pos he] at h
          injection h with h
          injection h with hb _
          exact absurd hb (by simp)
        · rw [if_neg he] at h
          match ho : cw.overlaps x y with
          | none =>
            rw [revise_fst_none ho] at hr
            simp at hr
          | some (i, j) =>
          apply ih _ _ _ ?_ ?_ h
          · intro p hp
            rcases List.mem_append.mp hp with hp | hp
            · obtain ⟨h1, h2, h3, _, _⟩ := mem_newArcs hp
              exact ⟨h1, by rw [h2]; exact hxv, by rw [h2]; exact h3⟩
            · exact harcs p (List.mem_cons_of_mem _ hp)
          · -- re-establish the invariant after the pruning step
            intro a ha b hb hab hov
            rcases hinv a ha b hb hab hov with hmem | hsup
            · rcases List.mem_cons.mp hmem with heq | hmem'
              · -- the popped arc is now supported
                right
                injection heq with ha1 hb1
                subst ha1
                subst hb1
                intro i' j' ho' wx hwx
                rw [ho] at ho'
                injection ho' with hij
                injection hij with hi hj
                subst hi
                subst hj
                rw [revise_mem_x ho] at hwx
                obtain ⟨hmemx, hsupp⟩ := hwx
                rw [hasSupport_iff] at hsupp
                obtain ⟨wy, hwy, heq2⟩ := hsupp
                refine ⟨wy, ?_, heq2.symm⟩
                rw [revise_snd_of_ne cw d a b b hyx]
                exact hwy
              · exact Or.inl (List.mem_append_right _ hmem')
            · by_cases hbx : b = x
              · by_cases hay : a = y
                · -- the reverse arc (y, x) stays supported without re-enqueueing
                  right
                  subst hay
                  subst hbx
                  intro i' j' ho' wy hwy
                  rw [revise_snd_of_ne cw d b a a hyx] at hwy
                  obtain ⟨wx, hwx, heq2⟩ := hsup i' j' ho' wy hwy
                  have hsym := hs b a i j ho
                  rw [ho'] at hsym
                  injection hsym with hsym
                  injection hsym with hji hij2
                  refine ⟨wx, ?_, heq2⟩
                  rw [revise_mem_x ho]
                  refine ⟨hwx, ?_⟩
                  rw [hasSupport_iff]
                  refine ⟨wy, hwy, ?_⟩
                  rw [← hji, ← hij2]
                  exact heq2
                · -- other arcs into x are re-enqueued
                  left
                  apply List.mem_append_left
                  rw [newArcs]
                  simp only [List.mem_map, List.mem_filter, decide_eq_true_iff]
                  refine ⟨a, ⟨?_, hay⟩, ?_⟩
                  · rw [mem_neighbors]
                    refine ⟨ha, by rw [hbx] at hab; exact hab, ?_⟩
                    rw [hbx] at hov
                    obtain ⟨q, hq⟩ := Option.isSome_iff_exists.mp hov
                    obtain ⟨qi, qj⟩ := q
                    rw [hs a x qi qj hq]
                    rfl
                  · rw [hbx]
              · -- arcs whose target is untouched stay supported
                right
                apply supported_of_sub ?_ (revise_snd_of_ne cw d x y b hbx) hsup
                intro w hw
                exact (revise_snd_sublist cw d x y a).subset hw
      · rw [if_neg hr] at h
        have hr' : (revise cw d x y).1 = false := by
          cases hbb : (revise cw d x y).1
          · rfl
          · exact absurd hbb hr
        apply ih _ _ _ (fun p hp => harcs p (List.mem_cons_of_mem _ hp)) ?_ h
        intro a ha b hb hab hov
        rcases hinv a ha b hb hab hov with hmem | hsup
        · rcases List.mem_cons.mp hmem with heq | hmem'
          · -- the popped arc was already supported (nothing was removed)
            right
            injection heq with ha1 hb1
            subst ha1
            subst hb1
            intro i' j' ho' wx hwx
            match ho : cw.overlaps a b with
            | none =>
              rw [ho] at ho'
              exact absurd ho' (by simp)
            | some (i, j) =>
              rw [ho] at ho'
              injection ho' with hij
              injection hij with hi hj
              subst hi
              subst hj
              rw [revise_false_pointwise hr' a] at hwx
              rw [revise_fst_eq ho, List.any_eq_false] at hr'
              have hsupp := hr' wx hwx
              simp only [Bool.not_eq_true', Bool.not_eq_false] at hsupp
              rw [hasSupport_iff] at hsupp
              obtain ⟨wy, hwy, heq2⟩ := hsupp
              refine ⟨wy, ?_, heq2.symm⟩
              rw [revise_false_pointwise (by rw [revise_fst_eq ho, List.any_eq_false]; exact hr') b]
              exact hwy
          · exact Or.inl hmem'
        · right
          apply supported_of_sub ?_ (revise_false_pointwise hr' b) hsup
          intro w hw
          rw [revise_false_pointwise hr' a] at hw
          exact hw

theorem ac3_run (cw : Crossword) (d : Domains) :
    ac3Fuel cw (ac3Bound cw (ac3Arcs cw) d + 1) (ac3Arcs cw) d = some (ac3 cw d) := by
  have h := ac3Fuel_isSome cw (ac3Bound cw (ac3Arcs cw) d + 1) (ac3Arcs cw) d
    (Nat.lt_succ_self _)
  obtain ⟨res, hres⟩ := Option.isSome_iff_exists.mp h
  rw [ac3, hres]
  rfl

/-! ### Variable selection (minimum-remaining-values) -/

theorem mrvLt_irrefl (k : Nat × Nat) : mrvLt k k = false := by
  simp [mrvLt]

theorem mrvLt_asymm {k1 k2 : Nat × Nat} (h : mrvLt k1 k2 = true) : mrvLt k2 k1 = false := by
  simp [mrvLt] at h ⊢
  omega

theorem mrvLt_not_lt_trans {k1 k2 k3 : Nat × Nat} (h1 : mrvLt k1 k2 = false)
    (h2 : mrvLt k2 k3 = false) : mrvLt k1 k3 = false := by
  simp [mrvLt] at h1 h2 ⊢
  omega

theorem selMin_spec (cw : Crossword) (d : Domains) :
    ∀ rest v, (selMin cw d v rest = v ∨ selMin cw d v rest ∈ rest) ∧
      ∀ u, (u = v ∨ u ∈ rest) →
        mrvLt (mrvKey cw d u) (mrvKey cw d (selMin cw d v rest)) = false := by
  intro rest
  induction rest with
  | nil =>
    intro v
    refine ⟨Or.inl rfl, ?_⟩
    intro u hu
    rcases hu with rfl | hu
    · exact mrvLt_irrefl _
    · cases hu
  | cons h t ih =>
    intro v
    have hstep : selMin cw d v (h :: t)
        = selMin cw d (if mrvLt (mrvKey cw d h) (mrvKey cw d v) = true then h else v) t := by
      rw [selMin, List.foldl_cons, selMin]
    rw [hstep]
    set b' := if mrvLt (mrvKey cw d h) (mrvKey cw d v) = true then h else v with hb'
    obtain ⟨ihmem, ihmin⟩ := ih b'
    constructor
    · rcases ihmem with he | he
      · by_cases hc : mrvLt (mrvKey cw d h) (mrvKey cw d v) = true
        · right
          rw [he, hb', if_pos hc]
          exact List.mem_cons_self _ _
        · left
          rw [he, hb', if_neg hc]
      · right
        exact List.mem_cons_of_mem _ he
    · intro u hu
      have hvb : mrvLt (mrvKey cw d v) (mrvKey cw d b') = false := by
        by_cases hc : mrvLt (mrvKey cw d h) (mrvKey cw d v) = true
        · rw [hb', if_pos hc]
          exact mrvLt_asymm hc
        · rw [hb', if_neg hc]
          exact mrvLt_irrefl _
      have hhb : mrvLt (mrvKey cw d h) (mrvKey cw d b') = false := by
        by_cases hc : mrvLt (mrvKey cw d h) (mrvKey cw d v) = true
        · rw [hb', if_pos hc]
          exact mrvLt_irrefl _
        · rw [hb', if_neg hc]
          simpa using hc
      have hmin' := ihmin b' (Or.inl rfl)
      rcases hu with rfl | hu
      · exact mrvLt_not_lt_trans hvb hmin'
      · rcases List.mem_cons.mp hu with rfl | hu'
        · exact mrvLt_not_lt_trans hhb hmin'
        · exact ihmin u (Or.inr hu')

theorem select_some_spec {cw : Crossword} {d : Domains} {a : Assignment} {var : Variable}
    (h : select_unassigned_variable cw d a = some var) :
    var ∈ cw.vars ∧ lookupA a var = none ∧
      ∀ u ∈ cw.vars, lookupA a u = none →
        mrvLt (mrvKey cw d u) (mrvKey cw d var) = false := by
  rcases hf : cw.vars.filter (fun v => (lookupA a v).isNone) with _ | ⟨v, rest⟩
  · rw [select_unassigned_variable, hf] at h
    cases h
  · rw [select_unassigned_variable, hf] at h
    injection h with h
    obtain ⟨hmem, hmin⟩ := selMin_spec cw d rest v
    have hvmem : var ∈ v :: rest := by
      rcases hmem with he | he
      · rw [← h, he]
        exact List.mem_cons_self _ _
      · rw [← h]
        exact List.mem_cons_of_mem _ he
    have hvfil : var ∈ cw.vars.filter (fun v => (lookupA a v).isNone) := by
      rw [hf]
      exact hvmem
    rw [List.mem_filter] at hvfil
    refine ⟨hvfil.1, Option.isNone_iff_eq_none.mp hvfil.2, ?_⟩
    intro u hu hnone
    have hufil : u ∈ cw.vars.filter (fun v => (lookupA a v).isNone) := by
      rw [List.mem_filter]
      exact ⟨hu, by rw [hnone]; rfl⟩
    rw [hf] at hufil
    rw [← h]
    exact hmin u (List.mem_cons.mp hufil)

theorem select_isSome_of_incomplete {cw : Crossword} {d : Domains} {a : Assignment}
    (hsub : a.all (fun p => decide (p.1 ∈ cw.vars)) = true)
    (hnc : assignment_complete cw a = false) :
    ∃ var, select_unassigned_variable cw d a = some var := by
  rw [assignment_complete, hsub, Bool.and_true, List.all_eq_false] at hnc
  obtain ⟨v, hv, hnone⟩ := hnc
  have hvfil : v ∈ cw.vars.filter (fun v => (lookupA a v).isNone) := by
    rw [List.mem_filter]
    refine ⟨hv, ?_⟩
    cases hopt : lookupA a v with
    | none => rfl
    | some wv =>
      rw [hopt] at hnone
      simp at hnone
  rcases hf : cw.vars.filter (fun v => (lookupA a v).isNone) with _ | ⟨w, rest⟩
  · rw [hf] at hvfil
    cases hvfil
  · exact ⟨selMin cw d w rest, by rw [select_unassigned_variable, hf]⟩

/-! ### Stable insertion sort -/

theorem mem_insertSorted (le : Word → Word → Bool) (w x : Word) :
    ∀ l, x ∈ insertSorted le w l ↔ x = w ∨ x ∈ l := by
  intro l
  induction l with
  | nil => simp [insertSorted]
  | cons v rest ih =>
    rw [insertSorted]
    by_cases hc : le w v = true
    · rw [if_pos hc]
      simp [List.mem_cons]
    · rw [if_neg hc]
      simp only [List.mem_cons, ih]
      tauto

theorem insertSorted_perm (le : Word → Word → Bool) (w : Word) :
    ∀ l, (insertSorted le w l).Perm (w :: l) := by
  intro l
  induction l with
  | nil => exact List.Perm.refl _
  | cons v rest ih =>
    rw [insertSorted]
    by_cases hc : le w v = true
    · rw [if_pos hc]
    · rw [if_neg hc]
      exact List.Perm.trans (List.Perm.cons v ih) (List.Perm.swap w v rest)

theorem insertionSort_perm (le : Word → Word → Bool) :
    ∀ l, (insertionSort le l).Perm l := by
  intro l
  induction l with
  | nil => exact List.Perm.refl _
  | cons w rest ih =>
    rw [insertionSort]
    exact List.Perm.trans (insertSorted_perm le w _) (List.Perm.cons w ih)

theorem insertSorted_sorted (le : Word → Word → Bool)
    (htot : ∀ u v, le u v = false → le v u = true)
    (htrans : ∀ u v t, le u v = true → le v t = true → le u t = true) (w : Word) :
    ∀ l, List.Pairwise (fun u v => le u v = true) l →
      List.Pairwise (fun u v => le u v = true) (insertSorted le w l) := by
  intro l
  induction l with
  | nil =>
    intro _
    simp [insertSorted]
  | cons v rest ih =>
    intro hp
    rw [List.pairwise_cons] at hp
    obtain ⟨hv, hrest⟩ := hp
    rw [insertSorted]
    by_cases hc : le w v = true
    · rw [if_pos hc, List.pairwise_cons]
      constructor
      · intro a ha
        rcases List.mem_cons.mp ha with rfl | ha'
        · exact hc
        · exact htrans w v a hc (hv a ha')
      · rw [List.pairwise_cons]
        exact ⟨hv, hrest⟩
    · rw [if_neg hc, List.pairwise_cons]
      constructor
      · intro a ha
        rcases (mem_insertSorted le w a rest).mp ha with rfl | ha'
        · exact htot a v (by simpa using hc)
        · exact hv a ha'
      · exact ih hrest

theorem insertionSort_sorted (le : Word → Word → Bool)
    (htot : ∀ u v, le u v = false → le v u = true)
    (htrans : ∀ u v t, le u v = true → le v t = true → le u t = true) :
    ∀ l, List.Pairwise (fun u v => le u v = true) (insertionSort le l) := by
  intro l
  induction l with
  | nil => simp [insertionSort]
  | cons w rest ih =>
    rw [insertionSort]
    exact insertSorted_sorted le htot htrans w _ ih

theorem order_domain_values_perm (cw : Crossword) (d : Domains) (a : Assignment)
    (var : Variable) : (order_domain_values cw d a var).Perm (d var) :=
  insertionSort_perm _ _

theorem order_domain_values_sorted (cw : Crossword) (d : Domains) (a : Assignment)
    (var : Variable) :
    List.Pairwise (fun u v => conflictCount cw d a var u ≤ conflictCount cw d a var v)
      (order_domain_values cw d a var) := by
  have h := insertionSort_sorted
    (fun u v => decide (conflictCount cw d a var u ≤ conflictCount cw d a var v))
    (fun u v hf => by simp at hf ⊢; omega)
    (fun u v t h1 h2 => by simp at h1 h2 ⊢; omega) (d var)
  exact h.imp (fun hab => by simpa using hab)

/-! ### Backtracking search: unfolding equations -/

theorem tryValues_nil (cw : Crossword) (bt : Assignment → Option Assignment × Assignment)
    (var : Variable) (a : Assignment) : tryValues cw bt var [] a = (none, a) := rfl

theorem tryValues_cons (cw : Crossword) (bt : Assignment → Option Assignment × Assignment)
    (var : Variable) (value : Word) (rest : List Word) (a : Assignment) :
    tryValues cw bt var (value :: rest) a =
      if consistent cw (bindVar a var value) = true then
        match (bt (bindVar a var value)).1 with
        | some r => (some r, (bt (bindVar a var value)).2)
        | none => tryValues cw bt var rest (unbindVar (bt (bindVar a var value)).2 var)
      else tryValues cw bt var rest (unbindVar (bindVar a var value) var) := rfl

theorem backtrack_zero (cw : Crossword) (d : Domains) (a : Assignment) :
    backtrack cw d 0 a = (none, a) := rfl

theorem backtrack_succ (cw : Crossword) (d : Domains) (fuel : Nat) (a : Assignment) :
    backtrack cw d (fuel + 1) a =
      if assignment_complete cw a = true then (some a, a)
      else
        match select_unassigned_variable cw d a with
        | none => (none, a)
        | some var =>
          tryValues cw (fun a1 => backtrack cw d fuel a1) var
            (order_domain_values cw d a var) a := rfl

/-! ### Backtracking search: the dict is restored on failure -/

theorem tryValues_restore (cw : Crossword) (bt : Assignment → Option Assignment × Assignment)
    (var : Variable) (hbt : ∀ a', (bt a').1 = none → (bt a').2 = a') :
    ∀ vals a, lookupA a var = none → (tryValues cw bt var vals a).1 = none →
      (tryValues cw bt var vals a).2 = a := by
  intro vals
  induction vals with
  | nil =>
    intro a _ _
    rfl
  | cons value rest ih =>
    intro a hnone h
    rw [tryValues_cons] at h ⊢
    by_cases hc : consistent cw (bindVar a var value) = true
    · rw [if_pos hc] at h ⊢
      cases hres : (bt (bindVar a var value)).1 with
      | some r =>
        rw [hres] at h
        simp at h
      | none =>
        rw [hres] at h
        dsimp only at h ⊢
        have hstate := hbt (bindVar a var value) hres
        rw [hstate, unbindVar_bindVar a var value hnone] at h ⊢
        exact ih a hnone h
    · rw [if_neg hc] at h ⊢
      rw [unbindVar_bindVar a var value hnone] at h ⊢
      exact ih a hnone h

theorem backtrack_restore (cw : Crossword) (d : Domains) :
    ∀ fuel a, (backtrack cw d fuel a).1 = none → (backtrack cw d fuel a).2 = a := by
  intro fuel
  induction fuel with
  | zero =>
    intro a _
    rfl
  | succ fuel ih =>
    intro a h
    rw [backtrack_succ] at h ⊢
    by_cases hcomp : assignment_complete cw a = true
    · rw [if_pos hcomp] at h
      simp at h
    · rw [if_neg hcomp] at h ⊢
      cases hsel : select_unassigned_variable cw d a with
      | none => rfl
      | some var =>
        rw [hsel] at h
        dsimp only at h ⊢
        exact tryValues_restore cw _ var (fun a' => ih a') _ a (select_some_spec hsel).2.1 h

/-! ### Backtracking search: on success the dict holds the returned assignment -/

theorem tryValues_success_state (cw : Crossword)
    (bt : Assignment → Option Assignment × Assignment) (var : Variable)
    (hbt : ∀ a' r, (bt a').1 = some r → (bt a').2 = r) :
    ∀ vals a r, (tryValues cw bt var vals a).1 = some r →
      (tryValues cw bt var vals a).2 = r := by
  intro vals
  induction vals with
  | nil =>
    intro a r h
    simp [tryValues_nil] at h
  | cons value rest ih =>
    intro a r h
    rw [tryValues_cons] at h ⊢
    by_cases hc : consistent cw (bindVar a var value) = true
    · rw [if_pos hc] at h ⊢
      cases hres : (bt (bindVar a var value)).1 with
      | some r' =>
        rw [hres] at h
        dsimp only at h ⊢
        rw [← Option.some.inj h]
        exact hbt _ r' hres
      | none =>
        rw [hres] at h
        dsimp only at h ⊢
        exact ih _ r h
    · rw [if_neg hc] at h ⊢
      exact ih _ r h

theorem backtrack_success_state (cw : Crossword) (d : Domains) :
    ∀ fuel a r, (backtrack cw d fuel a).1 = some r → (backtrack cw d fuel a).2 = r := by
  intro fuel
  induction fuel with
  | zero =>
    intro a r h
    simp [backtrack_zero] at h
  | succ fuel ih =>
    intro a r h
    rw [backtrack_succ] at h ⊢
    by_cases hcomp : assignment_complete cw a = true
    · rw [if_pos hcomp] at h ⊢
      dsimp only at h ⊢
      exact Option.some.inj h
    · rw [if_neg hcomp] at h ⊢
      cases hsel : select_unassigned_variable cw d a with
      | none =>
        rw [hsel] at h
        simp at h
      | some var =>
        rw [hsel] at h
        dsimp only at h ⊢
        exact tryValues_success_state cw _ var (fun a' r' => ih a' r') _ a r h

/-! ### Backtracking search: soundness -/

theorem tryValues_sound (cw : Crossword) (bt : Assignment → Option Assignment × Assignment)
    (var : Variable) (r : Assignment)
    (hbt : ∀ a', consistent cw a' = true → (bt a').1 = some r →
      consistent cw r = true ∧ assignment_complete cw r = true) :
    ∀ vals a, (tryValues cw bt var vals a).1 = some r →
      consistent cw r = true ∧ assignment_complete cw r = true := by
  intro vals
  induction vals with
  | nil =>
    intro a h
    simp [tryValues_nil] at h
  | cons value rest ih =>
    intro a h
    rw [tryValues_cons] at h
    by_cases hc : consistent cw (bindVar a var value) = true
    · rw [if_pos hc] at h
      cases hres : (bt (bindVar a var value)).1 with
      | some r' =>
        rw [hres] at h
        dsimp only at h
        rw [Option.some.inj h] at hres
        exact hbt _ hc hres
      | none =>
        rw [hres] at h
        dsimp only at h
        exact ih _ h
    · rw [if_neg hc] at h
      exact ih _ h

theorem backtrack_sound (cw : Crossword) (d : Domains) :
    ∀ fuel a r, consistent cw a = true → (backtrack cw d fuel a).1 = some r →
      consistent cw r = true ∧ assignment_complete cw r = true := by
  intro fuel
  induction fuel with
  | zero =>
    intro a r _ h
    simp [backtrack_zero] at h
  | succ fuel ih =>
    intro a r hcons h
    rw [backtrack_succ] at h
    by_cases hcomp : assignment_complete cw a = true
    · rw [if_pos hcomp] at h
      dsimp only at h
      rw [← Option.some.inj h]
      exact ⟨hcons, hcomp⟩
    · rw [if_neg hcomp] at h
      cases hsel : select_unassigned_variable cw d a with
      | none =>
        rw [hsel] at h
        simp at h
      | some var =>
        rw [hsel] at h
        dsimp only at h
        exact tryValues_sound cw _ var r (fun a' hc hsome => ih a' r hc hsome) _ a h

/-! ### Backtracking search: completeness -/

theorem consistent_of_agrees (cw : Crossword) (g : Variable → Word)
    (hw : SolWords cw g) (hp : SolPair cw g) (a : Assignment)
    (ha : ∀ p ∈ a, p.1 ∈ cw.vars ∧ p.2 = g p.1) : consistent cw a = true := by
  rw [consistent, List.all_eq_true]
  intro p hpmem
  obtain ⟨hpv, hpg⟩ := ha p hpmem
  rw [Bool.and_eq_true]
  constructor
  · rw [decide_eq_true_iff, hpg]
    exact (hw p.1 hpv).1
  · rw [List.all_eq_true]
    intro nb hnb
    cases hnbl : lookupA a nb with
    | none => rfl
    | some w2 =>
      obtain ⟨hnbv, hnbne, _⟩ := mem_neighbors.mp hnb
      cases ho : cw.overlaps p.1 nb with
      | none => rfl
      | some ij =>
        obtain ⟨i, j⟩ := ij
        dsimp
        rw [decide_eq_true_iff]
        have hw2 : w2 = g nb := (ha (nb, w2) (lookupA_mem hnbl)).2
        rw [hpg, hw2]
        exact hp p.1 hpv nb hnbv (Ne.symm hnbne) i j ho

theorem countP_lt {α : Type} (l : List α) (p q : α → Bool) (x : α) (hx : x ∈ l)
    (hpx : p x = true) (hqx : q x = false) (himp : ∀ y, q y = true → p y = true) :
    l.countP q < l.countP p := by
  induction l with
  | nil => cases hx
  | cons a t ih =>
    rw [List.countP_cons, List.countP_cons]
    rcases List.mem_cons.mp hx with hxa | hx'
    · have hle : t.countP q ≤ t.countP p := List.countP_mono_left (fun y _ hy => himp y hy)
      have hpa : p a = true := hxa ▸ hpx
      have hqa : q a = false := hxa ▸ hqx
      rw [hpa, hqa]
      simp
      omega
    · have h1 : t.countP q < t.countP p := ih hx'
      by_cases hqa : q a = true
      · rw [hqa, himp a hqa]
        simp
        omega
      · have hqa' : q a = false := by simpa using hqa
        rw [hqa']
        by_cases hpa : p a = true
        · rw [hpa]
          simp
          omega
        · have hpa' : p a = false := by simpa using hpa
          rw [hpa']
          simp
          omega

theorem unassignedCount_bind_lt (cw : Crossword) (a : Assignment) (var : Variable) (w : Word)
    (hv : var ∈ cw.vars) (hnone : lookupA a var = none) :
    unassignedCount cw (bindVar a var w) < unassignedCount cw a := by
  unfold unassignedCount
  rw [← List.countP_eq_length_filter, ← List.countP_eq_length_filter]
  apply countP_lt cw.vars _ _ var hv
  · rw [hnone]
    rfl
  · rw [lookupA_bindVar, if_pos rfl]
    rfl
  · intro y hy
    rw [lookupA_bindVar] at hy
    by_cases hvy : var = y
    · rw [if_pos hvy] at hy
      cases hy
    · rw [if_neg hvy] at hy
      exact hy

theorem tryValues_completes (cw : Crossword) (bt : Assignment → Option Assignment × Assignment)
    (var : Variable) (w0 : Word)
    (hbt : ∀ a', (bt a').1 = none → (bt a').2 = a') :
    ∀ vals a, lookupA a var = none → w0 ∈ vals →
      consistent cw (bindVar a var w0) = true →
      (bt (bindVar a var w0)).1.isSome = true →
      (tryValues cw bt var vals a).1.isSome = true := by
  intro vals
  induction vals with
  | nil =>
    intro a _ hmem
    cases hmem
  | cons value rest ih =>
    intro a hnone hmem hcons hsucc
    rw [tryValues_cons]
    by_cases heq : value = w0
    · subst heq
      rw [if_pos hcons]
      cases hres : (bt (bindVar a var value)).1 with
      | some r => rfl
      | none =>
        rw [hres] at hsucc
        simp at hsucc
    · have hmem' : w0 ∈ rest := by
        rcases List.mem_cons.mp hmem with h | h
        · exact absurd h.symm heq
        · exact h
      by_cases hc : consistent cw (bindVar a var value) = true
      · rw [if_pos hc]
        cases hres : (bt (bindVar a var value)).1 with
        | some r => rfl
        | none =>
          dsimp only
          have hstate := hbt _ hres
          rw [hstate, unbindVar_bindVar a var value hnone]
          exact ih a hnone hmem' hcons hsucc
      · rw [if_neg hc]
        rw [unbindVar_bindVar a var value hnone]
        exact ih a hnone hmem' hcons hsucc

theorem backtrack_completes (cw : Crossword) (g : Variable → Word) (d : Domains)
    (hw : SolWords cw g) (hp : SolPair cw g) (hd : ∀ v ∈ cw.vars, g v ∈ d v) :
    ∀ fuel a, unassignedCount cw a < fuel →
      (∀ p ∈ a, p.1 ∈ cw.vars ∧ p.2 = g p.1) →
      (backtrack cw d fuel a).1.isSome = true := by
  intro fuel
  induction fuel with
  | zero =>
    intro a h _
    exact absurd h (Nat.not_lt_zero _)
  | succ fuel ih =>
    intro a hfuel ha
    rw [backtrack_succ]
    by_cases hcomp : assignment_complete cw a = true
    · rw [if_pos hcomp]
      rfl
    · rw [if_neg hcomp]
      have hsub : a.all (fun p => decide (p.1 ∈ cw.vars)) = true := by
        rw [List.all_eq_true]
        intro p hp2
        exact decide_eq_true (ha p hp2).1
      have hcompf : assignment_complete cw a = false := by
        cases hcb : assignment_complete cw a
        · rfl
        · exact absurd hcb hcomp
      obtain ⟨var, hsel⟩ := select_isSome_of_incomplete hsub hcompf
      rw [hsel]
      dsimp only
      obtain ⟨hvv, hvnone, _⟩ := select_some_spec hsel
      have hgmem : g var ∈ order_domain_values cw d a var :=
        ((order_domain_values_perm cw d a var).mem_iff).mpr (hd var hvv)
      have hagree1 : ∀ p ∈ bindVar a var (g var), p.1 ∈ cw.vars ∧ p.2 = g p.1 := by
        intro p hp2
        rcases mem_bindVar hp2 with rfl | hp3
        · exact ⟨hvv, rfl⟩
        · exact ha p hp3
      have hcons1 : consistent cw (bindVar a var (g var)) = true :=
        consistent_of_agrees cw g hw hp _ hagree1
      have hcount : unassignedCount cw (bindVar a var (g var)) < fuel := by
        have := unassignedCount_bind_lt cw a var (g var) hvv hvnone
        rw [Nat.lt_succ_iff] at hfuel
        omega
      exact tryValues_completes cw _ var (g var) (fun a' => backtrack_restore cw d fuel a')
        _ a hvnone hgmem hcons1 (ih _ hcount hagree1)

/-! ### Assembly lemmas -/

theorem ov2_symm {a b : Variable} {i j : Nat} (hab : a ≠ b) :
    ∀ x y i' j', ov2 a b i j x y = some (i', j') → ov2 a b i j y x = some (j', i') := by
  intro x y i' j' h
  rw [ov2] at h ⊢
  by_cases h1 : x = a ∧ y = b
  · rw [if_pos h1] at h
    obtain ⟨hxa, hyb⟩ := h1
    have hn : ¬(y = a ∧ x = b) := by
      intro hc
      rw [hyb] at hc
      exact hab hc.1.symm
    rw [if_neg hn, if_pos ⟨hyb, hxa⟩]
    injection h with h
    injection h with hh1 hh2
    rw [← hh1, ← hh2]
  · rw [if_neg h1] at h
    by_cases h2 : x = b ∧ y = a
    · rw [if_pos h2] at h
      obtain ⟨hxb, hya⟩ := h2
      rw [if_pos ⟨hya, hxb⟩]
      injection h with h
      injection h with hh1 hh2
      rw [← hh1, ← hh2]
    · rw [if_neg h2] at h
      cases h

theorem ov2_noself {a b : Variable} {i j : Nat} (hab : a ≠ b) :
    ∀ v, ov2 a b i j v v = none := by
  intro v
  rw [ov2, if_neg, if_neg]
  · intro hc
    obtain ⟨h1, h2⟩ := hc
    rw [h1] at h2
    exact hab h2.symm
  · intro hc
    obtain ⟨h1, h2⟩ := hc
    rw [h1] at h2
    exact hab h2

theorem ovA_symm : OverlapSymm cwA := by
  intro x y i j h
  exact ov2_symm (by decide) x y i j h

theorem ovA_noself : NoSelfOverlap cwA := by
  intro v
  exact ov2_noself (by decide) v

theorem ac3Arcs_inv (cw : Crossword) :
    ∀ p ∈ ac3Arcs cw, p.1 ∈ cw.vars ∧ p.2 ∈ cw.vars ∧ p.1 ≠ p.2 := by
  intro p hp
  rw [ac3Arcs, List.mem_flatMap] at hp
  obtain ⟨x, hx, hp2⟩ := hp
  rw [List.mem_map] at hp2
  obtain ⟨y, hy, rfl⟩ := hp2
  obtain ⟨hyv, hyx, _⟩ := mem_neighbors.mp hy
  exact ⟨hx, hyv, Ne.symm hyx⟩

theorem ac3Arcs_complete (cw : Crossword) :
    ∀ x ∈ cw.vars, ∀ y ∈ cw.vars, x ≠ y → (cw.overlaps x y).isSome = true →
      (x, y) ∈ ac3Arcs cw := by
  intro x hx y hy hxy hov
  rw [ac3Arcs, List.mem_flatMap]
  exact ⟨x, hx, List.mem_map.mpr ⟨y, mem_neighbors.mpr ⟨hy, Ne.symm hxy, hov⟩, rfl⟩⟩

theorem ac3_eq_run (cw : Crossword) (d : Domains) :
    ac3Fuel cw (ac3Bound cw (ac3Arcs cw) d + 1) (ac3Arcs cw) d
      = some ((ac3 cw d).1, (ac3 cw d).2) := by
  rw [ac3_run]

theorem enforce_node_consistency_len (d : Domains) (v : Variable) (w : Word)
    (h : w ∈ enforce_node_consistency d v) : w.length = v.length :=
  decide_eq_true_iff.mp (List.mem_filter.mp h).2

theorem backtrack_empty_domain (cw : Crossword) (d : Domains) {x : Variable}
    (hx : x ∈ cw.vars) (hempty : d x = []) (fuel : Nat) :
    (backtrack cw d (fuel + 1) []).1 = none := by
  rw [backtrack_succ]
  have hcomp : assignment_complete cw [] = false := by
    rw [assignment_complete]
    have hall : cw.vars.all (fun v => (lookupA [] v).isSome) = false := by
      rw [List.all_eq_false]
      exact ⟨x, hx, by simp [lookupA]⟩
    rw [hall]
    rfl
  rw [if_neg (by simp [hcomp])]
  cases hsel : select_unassigned_variable cw d [] with
  | none => rfl
  | some var =>
    obtain ⟨hvv, _, hmin⟩ := select_some_spec hsel
    have h0 := hmin x hx rfl
    have hlen : (d var).length = 0 := by
      by_contra hne
      have hpos : 0 < (d var).length := Nat.pos_of_ne_zero hne
      have htrue : mrvLt (mrvKey cw d x) (mrvKey cw d var) = true := by
        rw [mrvKey, mrvKey, hempty, mrvLt, Bool.or_eq_true]
        left
        exact decide_eq_true hpos
      rw [htrue] at h0
      simp at h0
    have hdvar : d var = [] := List.length_eq_zero.mp hlen
    dsimp only
    rw [order_domain_values, hdvar]
    rfl

/-! ### Claim theorems -/

/-- C1 (counterexample): the claim says that when AC-3 reports failure the
result is "no solution" and backtracking is not invoked; on the concrete
two-slot puzzle `cwB` the `ac3` run fails (returns false), yet `solve` as
written reaches its backtracking call unconditionally (the trace bit of
`solveTraced` is true). -/
theorem solve_invokes_backtrack_cex :
    (ac3 cwB (enforce_node_consistency (initialDomains cwB))).1 = false
      ∧ (solveTraced cwB).2 = true := by
  constructor
  · decide
  · rfl

/-- C1 (amended): `solve` runs node consistency, then AC-3 over all arcs, but
discards AC-3's Boolean result and always returns the result of `backtrack` on
the empty assignment; nevertheless, when AC-3 reports failure some variable's
domain is empty, and the backtracking call immediately returns "no solution".
-/
theorem solve_structure_amended (cw : Crossword) :
    solve cw = (backtrack cw
        ((ac3 cw (enforce_node_consistency (initialDomains cw))).2)
        (cw.vars.length + 1) []).1
      ∧ ((ac3 cw (enforce_node_consistency (initialDomains cw))).1 = false →
        solve cw = none) := by
  constructor
  · rfl
  · intro hfalse
    have hrun := ac3_eq_run cw (enforce_node_consistency (initialDomains cw))
    rw [hfalse] at hrun
    obtain ⟨x, hx, hempty⟩ := ac3Fuel_false_empty cw _ _ _ _
      (fun p hp => (ac3Arcs_inv cw p hp).1) hrun
    show (backtrack cw
        ((ac3 cw (enforce_node_consistency (initialDomains cw))).2)
        (cw.vars.length + 1) []).1 = none
    exact backtrack_empty_domain cw _ hx hempty _

/-- C1 (witness): on the failing puzzle `cwB`, `solve` indeed reports no
solution. -/
theorem solve_structure_amended_witness : solve cwB = none :=
  (solve_structure_amended cwB).2 (by decide)

/-- C2: soundness — any assignment returned by `solve` is `consistent` and
`assignment_complete`. -/
theorem solve_sound (cw : Crossword) (r : Assignment) (h : solve cw = some r) :
    consistent cw r = true ∧ assignment_complete cw r = true :=
  backtrack_sound cw _ _ [] r rfl h

/-- C2 (witness): on the solvable two-slot puzzle `cwA`, `solve` returns
v1 = ABC, v2 = CBA, which is consistent and complete. -/
theorem solve_sound_witness :
    consistent cwA [(v2, "CBA".toList), (v1, "ABC".toList)] = true
      ∧ assignment_complete cwA [(v2, "CBA".toList), (v1, "ABC".toList)] = true :=
  solve_sound cwA [(v2, "CBA".toList), (v1, "ABC".toList)] (by decide)

/-- C3: completeness — if some complete consistent assignment exists over the
original (unpruned) word list, then `solve` returns a complete consistent
assignment: node consistency and AC-3 never prune a value participating in a
global solution, and backtracking exhausts the remaining candidates. -/
theorem solve_complete (cw : Crossword)
    (h : ∃ f, assignment_complete cw f = true ∧ consistent cw f = true ∧
      ∀ p ∈ f, p.2 ∈ cw.words) :
    ∃ r, solve cw = some r ∧ consistent cw r = true
      ∧ assignment_complete cw r = true := by
  obtain ⟨f, hcomp, hcons, hwords⟩ := h
  set g : Variable → Word := fun v => (lookupA f v).getD [] with hg
  have hlook : ∀ v ∈ cw.vars, lookupA f v = some (g v) := by
    intro v hv
    rw [assignment_complete, Bool.and_eq_true, List.all_eq_true] at hcomp
    obtain ⟨w, hw⟩ := Option.isSome_iff_exists.mp (hcomp.1 v hv)
    rw [hg]
    simp [hw]
  have hmemf : ∀ v ∈ cw.vars, (v, g v) ∈ f := fun v hv => lookupA_mem (hlook v hv)
  have hcons' := hcons
  rw [consistent, List.all_eq_true] at hcons'
  have hw : SolWords cw g := by
    intro v hv
    have hpred := hcons' (v, g v) (hmemf v hv)
    rw [Bool.and_eq_true] at hpred
    exact ⟨decide_eq_true_iff.mp hpred.1, hwords _ (hmemf v hv)⟩
  have hp : SolPair cw g := by
    intro x hx y hy hxy i j ho
    have hpred := hcons' (x, g x) (hmemf x hx)
    rw [Bool.and_eq_true, List.all_eq_true] at hpred
    have hnbmem : y ∈ cw.neighbors x :=
      mem_neighbors.mpr ⟨hy, Ne.symm hxy, by rw [ho]; rfl⟩
    have hnb := hpred.2 y hnbmem
    rw [hlook y hy] at hnb
    dsimp only at hnb
    rw [ho] at hnb
    dsimp only at hnb
    exact decide_eq_true_iff.mp hnb
  have hd1 : ∀ v ∈ cw.vars, g v ∈ enforce_node_consistency (initialDomains cw) v := by
    intro v hv
    simp only [enforce_node_consistency]
    rw [List.mem_filter]
    exact ⟨(hw v hv).2, decide_eq_true (hw v hv).1⟩
  have hd2 : ∀ v ∈ cw.vars,
      g v ∈ (ac3 cw (enforce_node_consistency (initialDomains cw))).2 v :=
    ac3Fuel_keeps cw g hp _ _ _ _ _ (ac3Arcs_inv cw) hd1
      (ac3_eq_run cw (enforce_node_consistency (initialDomains cw)))
  have hcount : unassignedCount cw [] < cw.vars.length + 1 := by
    rw [unassignedCount]
    exact Nat.lt_succ_of_le (List.length_filter_le _ _)
  have hsome := backtrack_completes cw g _ hw hp hd2 (cw.vars.length + 1) []
    hcount (by intro p hp2; cases hp2)
  obtain ⟨r, hr⟩ := Option.isSome_iff_exists.mp hsome
  refine ⟨r, hr, ?_⟩
  exact backtrack_sound cw _ _ [] r rfl hr

/-- C3 (witness): `cwA` has the complete consistent assignment v1 = ABC,
v2 = CBA over the original word list, and `solve` finds a solution. -/
theorem solve_complete_witness :
    ∃ r, solve cwA = some r ∧ consistent cwA r = true
      ∧ assignment_complete cwA r = true :=
  solve_complete cwA
    ⟨[(v1, "ABC".toList), (v2, "CBA".toList)], by decide, by decide, by decide⟩

/-- C4: `revise(x, y)` returns false and changes nothing when `overlap(x,y)`
is none; otherwise a candidate survives in `domains[x]` iff it has a support
in `domains[y]` at the overlap offsets, all non-survivors are removed, and the
returned Boolean is true iff `domains[x]` changed. -/
theorem revise_spec (cw : Crossword) (d : Domains) (x y : Variable) :
    (cw.overlaps x y = none → revise cw d x y = (false, d))
    ∧ (∀ i j, cw.overlaps x y = some (i, j) →
        (∀ w, w ∈ (revise cw d x y).2 x ↔
          w ∈ d x ∧ ∃ wy ∈ d y, w.get? i = wy.get? j)
        ∧ ((revise cw d x y).1 = true ↔ (revise cw d x y).2 x ≠ d x)) := by
  constructor
  · exact fun h => revise_fst_none h
  · intro i j ho
    constructor
    · intro w
      rw [revise_mem_x ho, hasSupport_iff]
      constructor
      · rintro ⟨h1, wy, h2, h3⟩
        exact ⟨h1, wy, h2, h3.symm⟩
      · rintro ⟨h1, wy, h2, h3⟩
        exact ⟨h1, wy, h2, h3.symm⟩
    · rw [revise_fst_eq ho, revise_snd_x ho]
      constructor
      · intro hany heq
        rw [List.any_eq_true] at hany
        obtain ⟨w, hw, hns⟩ := hany
        have hkeep := List.filter_eq_self.mp heq w hw
        simp at hns
        exact absurd hkeep (by simp [hns])
      · intro hneq
        by_contra hnotany
        have hfalse : (d x).any (fun wx => !hasSupport (d y) i j wx) = false := by
          cases hb : (d x).any (fun wx => !hasSupport (d y) i j wx)
          · rfl
          · exact absurd hb hnotany
        rw [List.any_eq_false] at hfalse
        apply hneq
        rw [List.filter_eq_self]
        intro w hw
        have := hfalse w hw
        simp at this
        exact this

/-- C4 (witness): on `cwA` with both domains {ABC, CBA} and the overlap
(2, 0), ABC survives in v1's domain with support CBA, and nothing is removed
(the revised flag is false). -/
theorem revise_spec_witness :
    ("ABC".toList ∈ (revise cwA dW v1 v2).2 v1 ↔
      "ABC".toList ∈ dW v1 ∧ ∃ wy ∈ dW v2, ("ABC".toList).get? 2 = wy.get? 0)
    ∧ ((revise cwA dW v1 v2).1 = true ↔ (revise cwA dW v1 v2).2 v1 ≠ dW v1) :=
  ⟨((revise_spec cwA dW v1 v2).2 2 0 (by decide)).1 ("ABC".toList),
   ((revise_spec cwA dW v1 v2).2 2 0 (by decide)).2⟩

/-- C5: arc-consistency fixed point — whenever `ac3` started from the full
worklist returns true, every ordered pair of puzzle variables with a non-none
overlap is supported: each remaining value of `x` has a supporting value in
`y`'s remaining domain. -/
theorem ac3_fixed_point (cw : Crossword) (d : Domains)
    (hs : OverlapSymm cw) (hns : NoSelfOverlap cw)
    (h : (ac3 cw d).1 = true) :
    ∀ x ∈ cw.vars, ∀ y ∈ cw.vars, ∀ i j, cw.overlaps x y = some (i, j) →
      ∀ wx ∈ (ac3 cw d).2 x, ∃ wy ∈ (ac3 cw d).2 y, wx.get? i = wy.get? j := by
  intro x hx y hy i j ho wx hwx
  by_cases hxy : x = y
  · rw [hxy, hns y] at ho
    cases ho
  · have hrun := ac3_eq_run cw d
    rw [h] at hrun
    have hfix := ac3Fuel_fixed cw hs _ _ _ _ (ac3Arcs_inv cw)
      (fun a ha b hb hab hov => Or.inl (ac3Arcs_complete cw a ha b hb hab hov)) hrun
    exact hfix x hx y hy hxy i j ho wx hwx

/-- C5 (witness): on `cwA` after node consistency, `ac3` succeeds and ABC in
v1's domain keeps a support in v2's domain at the overlap (2, 0). -/
theorem ac3_fixed_point_witness :
    ∃ wy ∈ (ac3 cwA (enforce_node_consistency (initialDomains cwA))).2 v2,
      ("ABC".toList).get? 2 = wy.get? 0 :=
  ac3_fixed_point cwA (enforce_node_consistency (initialDomains cwA))
    ovA_symm ovA_noself (by decide) v1 (by decide) v2 (by decide) 2 0 (by decide)
    ("ABC".toList) (by decide)

/-- C6 (counterexample): on the puzzle `cwC` with domains w1 = {X, A} and
w2 = {A, B}, the list returned by `order_domain_values` is not sorted
ascending by the spec's conflict count (the count of unassigned neighbors with
zero compatible values): X has spec-count 1 and is returned before A with
spec-count 0. -/
theorem order_domain_values_spec_cex :
    ¬ List.Pairwise
      (fun u v => specConflictCount cwC dC [] w1 u ≤ specConflictCount cwC dC [] w1 v)
      (order_domain_values cwC dC [] w1) := by
  decide

/-- C6 (amended): `order_domain_values(var, assignment)` returns a permutation
of `domains[var]` sorted ascending (stably) by the implemented conflict count,
which counts the unassigned neighbors having at least one remaining value
incompatible with the candidate at the overlap position (rather than the
spec's count of neighbors with zero compatible values). -/
theorem order_domain_values_sorted_by_code_count (cw : Crossword) (d : Domains)
    (a : Assignment) (var : Variable) :
    (order_domain_values cw d a var).Perm (d var)
    ∧ List.Pairwise
        (fun u v => conflictCount cw d a var u ≤ conflictCount cw d a var v)
        (order_domain_values cw d a var) :=
  ⟨order_domain_values_perm cw d a var, order_domain_values_sorted cw d a var⟩

/-- C7 (counterexample): the claim requires the frame's binding to be unbound
on every return path, success included; on the one-variable puzzle `cwD` the
search succeeds and the dict at return still holds the binding made in the
frame (it is the returned assignment), so the success path does not unbind. -/
theorem backtrack_unbind_on_success_cex :
    (backtrack cwD dD 2 []).1.isSome = true ∧ (backtrack cwD dD 2 []).2 ≠ [] := by
  decide

/-- C7 (amended): every frame of `backtrack` binds one variable per candidate
and pops it on every failure path, so a frame that returns failure leaves the
assignment dict exactly as it was at entry and no binding leaks into sibling
branches; on the success path the bindings are retained, the final dict being
exactly the returned assignment. -/
theorem backtrack_frame_discipline (cw : Crossword) (d : Domains) (fuel : Nat)
    (a : Assignment) :
    ((backtrack cw d fuel a).1 = none → (backtrack cw d fuel a).2 = a)
    ∧ (∀ r, (backtrack cw d fuel a).1 = some r → (backtrack cw d fuel a).2 = r) :=
  ⟨backtrack_restore cw d fuel a, fun r => backtrack_success_state cw d fuel a r⟩

/-- C7 (witness): a failing search (`cwB`) returns the dict to its entry state
`[]`, and a succeeding search (`cwD`) returns the dict holding the solution. -/
theorem backtrack_frame_discipline_witness :
    (backtrack cwB dB 3 []).2 = [] ∧ (backtrack cwD dD 2 []).2 = [(vD, "A".toList)] :=
  ⟨(backtrack_frame_discipline cwB dB 3 []).1 (by decide),
   (backtrack_frame_discipline cwD dD 2 []).2 [(vD, "A".toList)] (by decide)⟩

/-- C8: length invariant — after `enforce_node_consistency` every domain value
has its variable's length, and the invariant is preserved by every subsequent
`revise` and by `ac3` (they only ever remove values) for the lifetime of the
solve. -/
theorem length_invariant (cw : Crossword) (d0 : Domains) :
    (∀ v w, w ∈ enforce_node_consistency d0 v → w.length = v.length)
    ∧ (∀ d x y v w, (∀ u w', w' ∈ d u → w'.length = u.length) →
        w ∈ (revise cw d x y).2 v → w.length = v.length)
    ∧ (∀ d v w, (∀ u w', w' ∈ d u → w'.length = u.length) →
        w ∈ (ac3 cw d).2 v → w.length = v.length) := by
  refine ⟨?_, ?_, ?_⟩
  · exact fun v w hw => enforce_node_consistency_len d0 v w hw
  · intro d x y v w hlen hw
    exact hlen v w ((revise_snd_sublist cw d x y v).subset hw)
  · intro d v w hlen hw
    exact hlen v w ((ac3Fuel_sublist cw _ _ _ _ _ (ac3_eq_run cw d) v).subset hw)

/-- C8 (witness): after node consistency on `cwA`, the value ABC in v1's
domain has v1's length 3. -/
theorem length_invariant_witness : ("ABC".toList).length = v1.length :=
  (length_invariant cwA (initialDomains cwA)).1 v1 ("ABC".toList) (by decide)

/-- C9: monotonic shrinkage — across any sequence of `revise` calls, each
variable's domain is a sublist of its domain before the sequence (so sizes are
non-increasing and no removed value ever re-enters). -/
theorem revise_monotone (cw : Crossword) (ps : List (Variable × Variable))
    (d : Domains) (v : Variable) :
    (reviseSeq cw ps d v).Sublist (d v)
      ∧ (reviseSeq cw ps d v).length ≤ (d v).length := by
  have hsub : ∀ ps d, (reviseSeq cw ps d v).Sublist (d v) := by
    intro ps
    induction ps with
    | nil => exact fun d => List.Sublist.refl _
    | cons p rest ih =>
      intro d
      exact List.Sublist.trans (ih _) (revise_snd_sublist cw d p.1 p.2 v)
  exact ⟨hsub ps d, (hsub ps d).length_le⟩

/-- C10: frame property of `revise(x, y)` — the domain of every variable other
than `x` is left unchanged (in particular `domains[y]`); the constraint graph
is immutable in this model, so it is unchanged as well. -/
theorem revise_frame_other_vars (cw : Crossword) (d : Domains) (x y z : Variable)
    (h : z ≠ x) : (revise cw d x y).2 z = d z :=
  revise_snd_of_ne cw d x y z h

/-- C10 (witness): revising v1 against v2 leaves v2's domain unchanged. -/
theorem revise_frame_other_vars_witness : (revise cwA dW v1 v2).2 v2 = dW v2 :=
  revise_frame_other_vars cwA dW v1 v2 v2 (by decide)

end Crosswords
